import Mathlib

/-!
Shallow embedding of src/src/main.rs (weighted First-Fit-Decreasing bin
packing). Demands and capacities are u32 values, modelled as Nat; the f32
weights and weighted comparisons are modelled exactly over Rat.
saturating_sub on u32 is Nat subtraction, which is itself truncated.
The assert! on the weight sum is modelled by returning Option.none.
-/

/-- Model of struct Bin (main.rs lines 9-14): per-bin capacities and the
list of placed items, each item a (cores, disk) pair. -/
structure Bin where
  core_capacity : Nat
  disk_capacity : Nat
  items : List (Nat × Nat)
deriving DecidableEq, Repr

/-- Model of Bin::new (main.rs lines 17-23). -/
def Bin.new (core_capacity disk_capacity : Nat) : Bin :=
  ⟨core_capacity, disk_capacity, []⟩

/-- Model of Bin::remaining_core_capacity (main.rs lines 40-42):
capacity.saturating_sub(sum of placed core demands); Nat subtraction is
exactly saturating subtraction. -/
def Bin.remaining_core_capacity (b : Bin) : Nat :=
  b.core_capacity - (b.items.map Prod.fst).sum

/-- Model of Bin::remaining_disk_capacity (main.rs lines 44-46). -/
def Bin.remaining_disk_capacity (b : Bin) : Nat :=
  b.disk_capacity - (b.items.map Prod.snd).sum

/-- Model of Bin::add_item (main.rs lines 25-38): push the item iff the
weighted fit test passes; return whether it was pushed. The Rust method
mutates self and returns bool; here it returns the flag and the new bin. -/
def Bin.add_item (b : Bin) (cores disk : Nat) (core_weight disk_weight : ℚ) :
    Bool × Bin :=
  if (cores : ℚ) * core_weight ≤ (b.remaining_core_capacity : ℚ) ∧
     (disk : ℚ) * disk_weight ≤ (b.remaining_disk_capacity : ℚ) then
    (true, ⟨b.core_capacity, b.disk_capacity, b.items ++ [(cores, disk)]⟩)
  else
    (false, b)

/-- Sort key of an item (main.rs lines 61-62): cores * core_weight +
disk * disk_weight. -/
def sortValue (core_weight disk_weight : ℚ) (p : Nat × Nat) : ℚ :=
  (p.1 : ℚ) * core_weight + (p.2 : ℚ) * disk_weight

/-- Insert an item into a list already sorted by descending sort value,
before the first element of smaller or equal value. Together with
sortDesc this models sorted_items.sort_unstable_by (main.rs lines 60-64):
any correct comparison sort yields this order on tie-free inputs. -/
def insertDesc (core_weight disk_weight : ℚ) (p : Nat × Nat) :
    List (Nat × Nat) → List (Nat × Nat)
  | [] => [p]
  | q :: l =>
    if sortValue core_weight disk_weight q ≤ sortValue core_weight disk_weight p then
      p :: q :: l
    else
      q :: insertDesc core_weight disk_weight p l

/-- Sort by descending sort value (main.rs lines 60-64). -/
def sortDesc (core_weight disk_weight : ℚ) :
    List (Nat × Nat) → List (Nat × Nat)
  | [] => []
  | p :: l => insertDesc core_weight disk_weight p (sortDesc core_weight disk_weight l)

/-- Model of the inner placement scan (main.rs lines 69-75): offer the item
to each existing bin in order; some bins' with the first accepting bin
updated, or none when every bin rejects. -/
def placeInBins (bins : List Bin) (cores disk : Nat) (core_weight disk_weight : ℚ) :
    Option (List Bin) :=
  match bins with
  | [] => none
  | b :: bs =>
    if (b.add_item cores disk core_weight disk_weight).1 then
      some ((b.add_item cores disk core_weight disk_weight).2 :: bs)
    else
      (placeInBins bs cores disk core_weight disk_weight).map (b :: ·)

/-- Model of one iteration of the outer loop (main.rs lines 68-82): place in
the first accepting bin; otherwise create one new bin, attempt the add
(the Rust code ignores the returned bool), and push the new bin regardless. -/
def ffdStep (core_capacity disk_capacity : Nat) (core_weight disk_weight : ℚ)
    (bins : List Bin) (item : Nat × Nat) : List Bin :=
  match placeInBins bins item.1 item.2 core_weight disk_weight with
  | some bins' => bins'
  | none =>
    bins ++ [((Bin.new core_capacity disk_capacity).add_item
                item.1 item.2 core_weight disk_weight).2]

/-- The placement loop over the sorted items (main.rs lines 66-84). -/
def ffdLoop (core_capacity disk_capacity : Nat) (core_weight disk_weight : ℚ)
    (sorted : List (Nat × Nat)) : List Bin :=
  sorted.foldl (ffdStep core_capacity disk_capacity core_weight disk_weight) []

/-- Model of bin_packing_weighted_ffd (main.rs lines 50-85). The assert! on
the weight sum (line 57, tolerance 1e-6) is modelled as Option.none; on
success the sorted items are folded through the placement loop. -/
def bin_packing_weighted_ffd (items : List (Nat × Nat))
    (core_capacity disk_capacity : Nat) (core_weight disk_weight : ℚ) :
    Option (List Bin) :=
  if |core_weight + disk_weight - 1| < 1 / 1000000 then
    some (ffdLoop core_capacity disk_capacity core_weight disk_weight
            (sortDesc core_weight disk_weight items))
  else
    none

/-- Multiset of all items placed across a list of bins. -/
def allPlaced (bins : List Bin) : Multiset (Nat × Nat) :=
  (bins.map fun b => (b.items : Multiset (Nat × Nat))).sum

/-- Modelled from the spec: the fit test of the unweighted variant
described in spec sections 1, 4.1 and 8 (succeeds iff remaining_compute ≥
item.compute and remaining_storage ≥ item.storage). No such variant exists
in src/src/main.rs; this definition exists to compare the spec's words
against the code's sole (weighted) fit test. -/
def unweighted_fit (b : Bin) (cores disk : Nat) : Bool :=
  decide (cores ≤ b.remaining_core_capacity ∧ disk ≤ b.remaining_disk_capacity)

/-- Invariant maintained by the packing loop: the bin carries the fixed
per-run capacities, and the weighted sum of placed demands stays within the
nominal capacity in each dimension. -/
def BinInv (cc dc : Nat) (cw dw : ℚ) (b : Bin) : Prop :=
  b.core_capacity = cc ∧ b.disk_capacity = dc ∧
  ((b.items.map Prod.fst).sum : ℚ) * cw ≤ (cc : ℚ) ∧
  ((b.items.map Prod.snd).sum : ℚ) * dw ≤ (dc : ℚ)

/-- Case analysis of add_item: either the weighted fit test holds and the
item is appended, or it fails and the bin is returned unchanged. -/
theorem Bin.add_item_spec (b : Bin) (c d : Nat) (cw dw : ℚ) :
    (((c : ℚ) * cw ≤ (b.remaining_core_capacity : ℚ) ∧
      (d : ℚ) * dw ≤ (b.remaining_disk_capacity : ℚ)) ∧
     b.add_item c d cw dw =
       (true, ⟨b.core_capacity, b.disk_capacity, b.items ++ [(c, d)]⟩)) ∨
    (¬((c : ℚ) * cw ≤ (b.remaining_core_capacity : ℚ) ∧
       (d : ℚ) * dw ≤ (b.remaining_disk_capacity : ℚ)) ∧
     b.add_item c d cw dw = (false, b)) := by
  by_cases h : ((c : ℚ) * cw ≤ (b.remaining_core_capacity : ℚ) ∧
      (d : ℚ) * dw ≤ (b.remaining_disk_capacity : ℚ))
  · exact Or.inl ⟨h, by simp [Bin.add_item, h]⟩
  · exact Or.inr ⟨h, by simp [Bin.add_item, h]⟩

/-- The add succeeds exactly when the weighted fit test holds. -/
theorem Bin.add_item_fst_true_iff (b : Bin) (c d : Nat) (cw dw : ℚ) :
    (b.add_item c d cw dw).1 = true ↔
      ((c : ℚ) * cw ≤ (b.remaining_core_capacity : ℚ) ∧
       (d : ℚ) * dw ≤ (b.remaining_disk_capacity : ℚ)) := by
  rcases Bin.add_item_spec b c d cw dw with ⟨h, he⟩ | ⟨h, he⟩ <;> simp [he, h]

/-- On success the new bin is the old one with the item appended. -/
theorem Bin.add_item_snd_of_true (b : Bin) (c d : Nat) (cw dw : ℚ)
    (h : (b.add_item c d cw dw).1 = true) :
    (b.add_item c d cw dw).2 =
      ⟨b.core_capacity, b.disk_capacity, b.items ++ [(c, d)]⟩ := by
  rcases Bin.add_item_spec b c d cw dw with ⟨_, he⟩ | ⟨_, he⟩ <;> simp [he] at h ⊢

/-- On failure the bin is unchanged. -/
theorem Bin.add_item_snd_of_false (b : Bin) (c d : Nat) (cw dw : ℚ)
    (h : (b.add_item c d cw dw).1 = false) :
    (b.add_item c d cw dw).2 = b := by
  rcases Bin.add_item_spec b c d cw dw with ⟨_, he⟩ | ⟨_, he⟩ <;> simp [he] at h ⊢

theorem allPlaced_nil : allPlaced [] = 0 := rfl

theorem allPlaced_cons (b : Bin) (bs : List Bin) :
    allPlaced (b :: bs) = (b.items : Multiset (Nat × Nat)) + allPlaced bs := by
  simp [allPlaced]

theorem allPlaced_append (l₁ l₂ : List Bin) :
    allPlaced (l₁ ++ l₂) = allPlaced l₁ + allPlaced l₂ := by
  simp [allPlaced]

/-- The placement scan returns none exactly when every bin rejects the item. -/
theorem placeInBins_none_iff (bins : List Bin) (c d : Nat) (cw dw : ℚ) :
    placeInBins bins c d cw dw = none ↔
      ∀ b ∈ bins, (b.add_item c d cw dw).1 = false := by
  induction bins with
  | nil => simp [placeInBins]
  | cons b bs ih =>
    by_cases h : (b.add_item c d cw dw).1
    · simp [placeInBins, h]
    · simp only [Bool.not_eq_true] at h
      simp [placeInBins, h, ih]

/-- A successful placement scan keeps the number of bins. -/
theorem placeInBins_some_length (bins bins' : List Bin) (c d : Nat) (cw dw : ℚ)
    (h : placeInBins bins c d cw dw = some bins') : bins'.length = bins.length := by
  induction bins generalizing bins' with
  | nil => simp [placeInBins] at h
  | cons b bs ih =>
    by_cases hb : (b.add_item c d cw dw).1
    · simp [placeInBins, hb] at h
      simp [← h]
    · simp only [Bool.not_eq_true] at hb
      simp [placeInBins, hb, Option.map_eq_some'] at h
      obtain ⟨a, ha, rfl⟩ := h
      simp [ih a ha]

/-- A successful placement scan adds the item once and loses nothing. -/
theorem placeInBins_some_allPlaced (bins bins' : List Bin) (c d : Nat) (cw dw : ℚ)
    (h : placeInBins bins c d cw dw = some bins') :
    allPlaced bins' = (c, d) ::ₘ allPlaced bins := by
  induction bins generalizing bins' with
  | nil => simp [placeInBins] at h
  | cons b bs ih =>
    by_cases hb : (b.add_item c d cw dw).1
    · simp [placeInBins, hb] at h
      rw [← h, allPlaced_cons, allPlaced_cons,
        Bin.add_item_snd_of_true b c d cw dw (by simp [hb])]
      simp only [← Multiset.coe_add, Multiset.coe_singleton, ← Multiset.singleton_add]
      abel
    · simp only [Bool.not_eq_true] at hb
      simp [placeInBins, hb, Option.map_eq_some'] at h
      obtain ⟨a, ha, rfl⟩ := h
      rw [allPlaced_cons, allPlaced_cons, ih a ha]
      simp [Multiset.add_cons, Multiset.cons_add]

/-- A successful placement scan preserves any bin predicate stable under
add_item. -/
theorem placeInBins_some_forall {P : Bin → Prop} (bins bins' : List Bin)
    (c d : Nat) (cw dw : ℚ)
    (hP : ∀ b, P b → P ((b.add_item c d cw dw).2))
    (hbins : ∀ b ∈ bins, P b)
    (h : placeInBins bins c d cw dw = some bins') : ∀ b ∈ bins', P b := by
  induction bins generalizing bins' with
  | nil => simp [placeInBins] at h
  | cons b bs ih =>
    by_cases hb : (b.add_item c d cw dw).1
    · simp [placeInBins, hb] at h
      rw [← h]
      intro x hx
      rcases List.mem_cons.mp hx with hx | hx
      · subst hx; exact hP b (hbins b (by simp))
      · exact hbins x (by simp [hx])
    · simp only [Bool.not_eq_true] at hb
      simp [placeInBins, hb, Option.map_eq_some'] at h
      obtain ⟨a, ha, rfl⟩ := h
      intro x hx
      rcases List.mem_cons.mp hx with hx | hx
      · subst hx; exact hbins x (by simp)
      · exact ih a (fun y hy => hbins y (by simp [hy])) ha x hx

/-- First-fit characterization of a successful placement scan: some bin
accepts, all earlier bins reject, and only the accepting bin changes. -/
theorem placeInBins_some_spec (bins bins' : List Bin) (c d : Nat) (cw dw : ℚ)
    (h : placeInBins bins c d cw dw = some bins') :
    ∃ i, ∃ hi : i < bins.length,
      ((bins.get ⟨i, hi⟩).add_item c d cw dw).1 = true ∧
      (∀ j (hj : j < bins.length), j < i →
        ((bins.get ⟨j, hj⟩).add_item c d cw dw).1 = false) ∧
      bins' = bins.set i ((bins.get ⟨i, hi⟩).add_item c d cw dw).2 := by
  induction bins generalizing bins' with
  | nil => simp [placeInBins] at h
  | cons b bs ih =>
    by_cases hb : (b.add_item c d cw dw).1
    · simp [placeInBins, hb] at h
      refine ⟨0, by simp, by simpa using hb, ?_, ?_⟩
      · intro j hj hj0; omega
      · simp [← h]
    · simp only [Bool.not_eq_true] at hb
      simp [placeInBins, hb, Option.map_eq_some'] at h
      obtain ⟨a, ha, rfl⟩ := h
      obtain ⟨i, hi, hacc, hrej, hset⟩ := ih a ha
      refine ⟨i + 1, Nat.succ_lt_succ hi, by simpa using hacc, ?_, ?_⟩
      · intro j hj hji
        cases j with
        | zero => simpa using hb
        | succ j =>
          exact hrej j (Nat.lt_of_succ_lt_succ hj) (by omega)
      · simp [hset]

/-- One placement step never shrinks the bin list. -/
theorem ffdStep_length (cc dc : Nat) (cw dw : ℚ) (bins : List Bin)
    (it : Nat × Nat) :
    bins.length ≤ (ffdStep cc dc cw dw bins it).length := by
  unfold ffdStep
  cases h : placeInBins bins it.1 it.2 cw dw with
  | none => simp
  | some bins' => simp [placeInBins_some_length bins bins' it.1 it.2 cw dw h]

/-- If the item fits an empty bin, one placement step adds it exactly once. -/
theorem ffdStep_allPlaced (cc dc : Nat) (cw dw : ℚ) (bins : List Bin)
    (it : Nat × Nat)
    (hfit : (it.1 : ℚ) * cw ≤ (cc : ℚ) ∧ (it.2 : ℚ) * dw ≤ (dc : ℚ)) :
    allPlaced (ffdStep cc dc cw dw bins it) = it ::ₘ allPlaced bins := by
  unfold ffdStep
  cases h : placeInBins bins it.1 it.2 cw dw with
  | some bins' =>
    simpa using placeInBins_some_allPlaced bins bins' it.1 it.2 cw dw h
  | none =>
    have hnew : ((Bin.new cc dc).add_item it.1 it.2 cw dw).1 = true := by
      rw [Bin.add_item_fst_true_iff]
      simpa [Bin.new, Bin.remaining_core_capacity, Bin.remaining_disk_capacity]
        using hfit
    rw [Bin.add_item_snd_of_true _ _ _ _ _ hnew]
    rw [allPlaced_append, allPlaced_cons, allPlaced_nil]
    simp only [Bin.new, List.nil_append, add_zero, ← Multiset.cons_coe,
      Multiset.coe_nil, Prod.mk.eta]
    rw [Multiset.add_cons, add_zero]

/-- One placement step preserves any bin predicate stable under add_item and
holding for a freshly created bin after its add attempt. -/
theorem ffdStep_forall {P : Bin → Prop} (cc dc : Nat) (cw dw : ℚ)
    (bins : List Bin) (it : Nat × Nat)
    (hP : ∀ b, P b → P ((b.add_item it.1 it.2 cw dw).2))
    (hnew : P (((Bin.new cc dc).add_item it.1 it.2 cw dw).2))
    (hbins : ∀ b ∈ bins, P b) :
    ∀ b ∈ ffdStep cc dc cw dw bins it, P b := by
  unfold ffdStep
  cases h : placeInBins bins it.1 it.2 cw dw with
  | some bins' =>
    simpa using placeInBins_some_forall bins bins' it.1 it.2 cw dw hP hbins h
  | none =>
    intro b hb
    rcases List.mem_append.mp hb with hb | hb
    · exact hbins b hb
    · rcases List.mem_singleton.mp hb with rfl
      exact hnew

/-- The whole placement loop preserves such a predicate. -/
theorem foldl_ffdStep_forall {P : Bin → Prop} (cc dc : Nat) (cw dw : ℚ)
    (hP : ∀ b c d, P b → P ((b.add_item c d cw dw).2))
    (hnew : ∀ c d : Nat, P (((Bin.new cc dc).add_item c d cw dw).2)) :
    ∀ (l : List (Nat × Nat)) (bins0 : List Bin), (∀ b ∈ bins0, P b) →
      ∀ b ∈ l.foldl (ffdStep cc dc cw dw) bins0, P b := by
  intro l
  induction l with
  | nil => intro bins0 h0; simpa using h0
  | cons p l ih =>
    intro bins0 h0
    simp only [List.foldl_cons]
    exact ih _ (ffdStep_forall cc dc cw dw bins0 p
      (fun b hb => hP b p.1 p.2 hb) (hnew p.1 p.2) h0)

/-- Conservation along the placement loop, when every item fits an empty bin. -/
theorem foldl_ffdStep_allPlaced (cc dc : Nat) (cw dw : ℚ) :
    ∀ (l : List (Nat × Nat)) (bins0 : List Bin),
      (∀ p ∈ l, (p.1 : ℚ) * cw ≤ (cc : ℚ) ∧ (p.2 : ℚ) * dw ≤ (dc : ℚ)) →
      allPlaced (l.foldl (ffdStep cc dc cw dw) bins0) =
        allPlaced bins0 + (l : Multiset (Nat × Nat)) := by
  intro l
  induction l with
  | nil => intro bins0 _; simp
  | cons p l ih =>
    intro bins0 hfit
    simp only [List.foldl_cons]
    rw [ih _ (fun q hq => hfit q (by simp [hq])),
      ffdStep_allPlaced cc dc cw dw bins0 p (hfit p (by simp))]
    simp [Multiset.cons_add, Multiset.add_cons, ← Multiset.cons_coe]

/-- Inserting keeps the same elements, one more copy of the inserted one. -/
theorem insertDesc_perm (cw dw : ℚ) (p : Nat × Nat) (l : List (Nat × Nat)) :
    (insertDesc cw dw p l).Perm (p :: l) := by
  induction l with
  | nil => simp [insertDesc]
  | cons q l ih =>
    by_cases h : sortValue cw dw q ≤ sortValue cw dw p
    · simp [insertDesc, h]
    · simp only [insertDesc, if_neg h]
      exact (ih.cons q).trans (List.Perm.swap p q l)

/-- The sort permutes its input (items.clone() then sort_unstable_by). -/
theorem sortDesc_perm (cw dw : ℚ) (l : List (Nat × Nat)) :
    (sortDesc cw dw l).Perm l := by
  induction l with
  | nil => simp [sortDesc]
  | cons p l ih =>
    exact (insertDesc_perm cw dw p (sortDesc cw dw l)).trans (ih.cons p)

/-- Inserting preserves descending order by sort value. -/
theorem insertDesc_pairwise (cw dw : ℚ) (p : Nat × Nat) (l : List (Nat × Nat))
    (hl : l.Pairwise (fun a b => sortValue cw dw b ≤ sortValue cw dw a)) :
    (insertDesc cw dw p l).Pairwise
      (fun a b => sortValue cw dw b ≤ sortValue cw dw a) := by
  induction l with
  | nil => simp [insertDesc]
  | cons q l ih =>
    rcases List.pairwise_cons.mp hl with ⟨hq, hl'⟩
    by_cases h : sortValue cw dw q ≤ sortValue cw dw p
    · simp only [insertDesc, if_pos h]
      refine List.pairwise_cons.mpr ⟨?_, hl⟩
      intro y hy
      rcases List.mem_cons.mp hy with rfl | hy
      · exact h
      · exact le_trans (hq y hy) h
    · simp only [insertDesc, if_neg h]
      refine List.pairwise_cons.mpr ⟨?_, ih hl'⟩
      intro y hy
      have hy' : y ∈ p :: l := (insertDesc_perm cw dw p l).mem_iff.mp hy
      rcases List.mem_cons.mp hy' with rfl | hy''
      · exact le_of_lt (lt_of_not_le h)
      · exact hq y hy''

/-- The sorted list is in descending order of weighted sort value. -/
theorem sortDesc_pairwise (cw dw : ℚ) (l : List (Nat × Nat)) :
    (sortDesc cw dw l).Pairwise
      (fun a b => sortValue cw dw b ≤ sortValue cw dw a) := by
  induction l with
  | nil => simp [sortDesc]
  | cons p l ih => exact insertDesc_pairwise cw dw p _ ih

/-- Inserting into a sorted list that ends in a smaller-or-equal element
leaves that element last. -/
theorem insertDesc_append_last (cw dw : ℚ) (p x : Nat × Nat)
    (s : List (Nat × Nat)) (h : sortValue cw dw x ≤ sortValue cw dw p) :
    insertDesc cw dw p (s ++ [x]) = insertDesc cw dw p s ++ [x] := by
  induction s with
  | nil => simp [insertDesc, h]
  | cons q s ih =>
    by_cases hq : sortValue cw dw q ≤ sortValue cw dw p
    · simp [insertDesc, hq]
    · simp [insertDesc, hq, ih]

/-- Appending an item of minimal sort value sorts to the end. -/
theorem sortDesc_append_last (cw dw : ℚ) (x : Nat × Nat) (l : List (Nat × Nat))
    (h : ∀ p ∈ l, sortValue cw dw x ≤ sortValue cw dw p) :
    sortDesc cw dw (l ++ [x]) = sortDesc cw dw l ++ [x] := by
  induction l with
  | nil => simp [sortDesc, insertDesc]
  | cons p l ih =>
    simp only [List.cons_append, sortDesc, List.append_eq]
    rw [ih (fun q hq => h q (by simp [hq]))]
    exact insertDesc_append_last cw dw p x _ (h p (by simp))

/-- One weighted dimension: an accepted add keeps the weighted sum within
the nominal capacity, for a weight in [0, 1]. -/
theorem weighted_sum_step (S c cap : Nat) (w : ℚ) (hw0 : 0 ≤ w) (hw1 : w ≤ 1)
    (hS : (S : ℚ) * w ≤ (cap : ℚ))
    (hc : (c : ℚ) * w ≤ ((cap - S : ℕ) : ℚ)) :
    ((S + c : ℕ) : ℚ) * w ≤ (cap : ℚ) := by
  push_cast
  have hexp : ((S : ℚ) + c) * w = (S : ℚ) * w + (c : ℚ) * w := by ring
  by_cases h : S ≤ cap
  · have hcast : ((cap - S : ℕ) : ℚ) = (cap : ℚ) - (S : ℚ) := by
      push_cast [h]; ring
    rw [hcast] at hc
    have hSw : (S : ℚ) * w ≤ (S : ℚ) :=
      mul_le_of_le_one_right (by positivity) hw1
    linarith
  · have hz : cap - S = 0 := Nat.sub_eq_zero_of_le (le_of_not_le h)
    rw [hz] at hc
    have hc0 : (0 : ℚ) ≤ (c : ℚ) * w := mul_nonneg (by positivity) hw0
    simp only [Nat.cast_zero] at hc
    linarith

/-- The invariant is stable under add_item, for weights in [0, 1]. -/
theorem BinInv_add_item (cc dc : Nat) (cw dw : ℚ) (c d : Nat)
    (hcw0 : 0 ≤ cw) (hcw1 : cw ≤ 1) (hdw0 : 0 ≤ dw) (hdw1 : dw ≤ 1)
    (b : Bin) (hb : BinInv cc dc cw dw b) :
    BinInv cc dc cw dw ((b.add_item c d cw dw).2) := by
  obtain ⟨h1, h2, h3, h4⟩ := hb
  rcases Bin.add_item_spec b c d cw dw with ⟨⟨hc, hd⟩, he⟩ | ⟨_, he⟩
  · rw [he]
    rw [Bin.remaining_core_capacity, h1] at hc
    rw [Bin.remaining_disk_capacity, h2] at hd
    refine ⟨h1, h2, ?_, ?_⟩
    · simpa using weighted_sum_step _ c cc cw hcw0 hcw1 h3 hc
    · simpa using weighted_sum_step _ d dc dw hdw0 hdw1 h4 hd
  · rw [he]
    exact ⟨h1, h2, h3, h4⟩

/-- A freshly created bin satisfies the invariant. -/
theorem BinInv_new (cc dc : Nat) (cw dw : ℚ) :
    BinInv cc dc cw dw (Bin.new cc dc) := by
  refine ⟨rfl, rfl, ?_, ?_⟩ <;> simp [Bin.new, Nat.cast_nonneg]

/-- Every bin produced by the placement loop satisfies the invariant. -/
theorem foldl_ffdStep_BinInv (cc dc : Nat) (cw dw : ℚ)
    (hcw0 : 0 ≤ cw) (hcw1 : cw ≤ 1) (hdw0 : 0 ≤ dw) (hdw1 : dw ≤ 1)
    (l : List (Nat × Nat)) :
    ∀ b ∈ l.foldl (ffdStep cc dc cw dw) [], BinInv cc dc cw dw b := by
  refine foldl_ffdStep_forall cc dc cw dw ?_ ?_ l [] (by simp)
  · intro b c d hb
    exact BinInv_add_item cc dc cw dw c d hcw0 hcw1 hdw0 hdw1 b hb
  · intro c d
    exact BinInv_add_item cc dc cw dw c d hcw0 hcw1 hdw0 hdw1 _
      (BinInv_new cc dc cw dw)

/-- Unfolding a successful call of the packer. -/
theorem pack_eq_some (items : List (Nat × Nat)) (cc dc : Nat) (cw dw : ℚ)
    (bins : List Bin)
    (h : bin_packing_weighted_ffd items cc dc cw dw = some bins) :
    bins = ffdLoop cc dc cw dw (sortDesc cw dw items) := by
  unfold bin_packing_weighted_ffd at h
  split at h
  · exact (Option.some.inj h).symm
  · exact absurd h (by simp)

/-- The packer returns a result exactly when the weight-sum check passes. -/
theorem pack_isSome_iff (items : List (Nat × Nat)) (cc dc : Nat) (cw dw : ℚ) :
    (bin_packing_weighted_ffd items cc dc cw dw).isSome = true ↔
      |cw + dw - 1| < 1 / 1000000 := by
  by_cases h : |cw + dw - 1| < 1 / 1000000 <;>
    simp [bin_packing_weighted_ffd, h]

/-- When the weight-sum check passes, the packer is the loop on the sorted
items. -/
theorem pack_eq_of_check (items : List (Nat × Nat)) (cc dc : Nat) (cw dw : ℚ)
    (h : |cw + dw - 1| < 1 / 1000000) :
    bin_packing_weighted_ffd items cc dc cw dw =
      some (ffdLoop cc dc cw dw (sortDesc cw dw items)) := by
  unfold bin_packing_weighted_ffd
  rw [if_pos h]

/-- Claim C1, counterexample: with items [(11,50)], capacities (10,200) and
weights (1,0) — a weight pair the precondition check accepts — the packer
returns one empty container and the item is gone, so the multiset of placed
items differs from the input multiset. -/
theorem C1_conservation_counterexample :
    bin_packing_weighted_ffd [(11, 50)] 10 200 1 0 =
      some [⟨10, 200, []⟩] ∧
    allPlaced [(⟨10, 200, []⟩ : Bin)] ≠
      (([(11, 50)] : List (Nat × Nat)) : Multiset (Nat × Nat)) := by
  constructor
  · norm_num [bin_packing_weighted_ffd, ffdLoop, ffdStep, placeInBins, sortDesc,
      insertDesc, sortValue, Bin.new, Bin.add_item, Bin.remaining_core_capacity,
      Bin.remaining_disk_capacity]
  · simp [allPlaced]

/-- Claim C1 (amended): for every run whose weight pair passes the
precondition check and in which every input item fits an empty container
under the weighted fit test, the multiset of items across all returned
containers equals the multiset of input items exactly: no item is dropped,
duplicated, or split. -/
theorem C1_conservation (items : List (Nat × Nat)) (cc dc : Nat) (cw dw : ℚ)
    (bins : List Bin)
    (hfit : ∀ p ∈ items, (p.1 : ℚ) * cw ≤ (cc : ℚ) ∧ (p.2 : ℚ) * dw ≤ (dc : ℚ))
    (h : bin_packing_weighted_ffd items cc dc cw dw = some bins) :
    allPlaced bins = (items : Multiset (Nat × Nat)) := by
  rw [pack_eq_some items cc dc cw dw bins h]
  rw [ffdLoop, foldl_ffdStep_allPlaced cc dc cw dw _ []
    (fun p hp => hfit p ((sortDesc_perm cw dw items).mem_iff.mp hp))]
  rw [allPlaced_nil, zero_add]
  exact Multiset.coe_eq_coe.mpr (sortDesc_perm cw dw items)

/-- Witness for C1 at a concrete run. -/
theorem C1_conservation_witness :
    (∀ p ∈ ([(4, 100), (2, 50)] : List (Nat × Nat)),
      (p.1 : ℚ) * (3/5) ≤ (10 : ℚ) ∧ (p.2 : ℚ) * (2/5) ≤ (200 : ℚ)) ∧
    allPlaced [(⟨10, 200, [(4, 100), (2, 50)]⟩ : Bin)] =
      (([(4, 100), (2, 50)] : List (Nat × Nat)) : Multiset (Nat × Nat)) := by
  have hfit : ∀ p ∈ ([(4, 100), (2, 50)] : List (Nat × Nat)),
      (p.1 : ℚ) * (3/5) ≤ (10 : ℚ) ∧ (p.2 : ℚ) * (2/5) ≤ (200 : ℚ) := by
    intro p hp
    rcases List.mem_cons.mp hp with rfl | hp
    · norm_num
    · rcases List.mem_singleton.mp hp with rfl
      norm_num
  refine ⟨hfit, C1_conservation [(4, 100), (2, 50)] 10 200 (3/5) (2/5)
    [⟨10, 200, [(4, 100), (2, 50)]⟩] hfit ?_⟩
  norm_num [bin_packing_weighted_ffd, ffdLoop, ffdStep, placeInBins, sortDesc,
    insertDesc, sortValue, Bin.new, Bin.add_item, Bin.remaining_core_capacity,
    Bin.remaining_disk_capacity]

/-- Claim C2, counterexample: the weight pair (1.5, -0.5) passes the
precondition check, and packing [(4,100),(4,100)] into capacities (10,200)
puts both items in one container: the compute-demand sum 8 exceeds
compute_capacity / compute_weight = 10 / 1.5. -/
theorem C2_capacity_invariant_counterexample :
    bin_packing_weighted_ffd [(4, 100), (4, 100)] 10 200 (3/2) (-(1/2)) =
      some [⟨10, 200, [(4, 100), (4, 100)]⟩] ∧
    ¬ ((((⟨10, 200, [(4, 100), (4, 100)]⟩ : Bin).items.map Prod.fst).sum : ℚ) ≤
        (10 : ℚ) / (3/2)) := by
  constructor
  · norm_num [bin_packing_weighted_ffd, ffdLoop, ffdStep, placeInBins,
      sortDesc, insertDesc, sortValue, Bin.new, Bin.add_item,
      Bin.remaining_core_capacity, Bin.remaining_disk_capacity]
  · norm_num

/-- Claim C2 (amended): for weights in (0, 1] — the spec's weight domain —
for every container returned by the packer the sum of compute demands is at
most compute_capacity divided by compute_weight (symmetrically for
storage), and the remaining-capacity accessors clamp at zero when the
placed sum reaches or exceeds the nominal capacity (they can never report a
negative value). -/
theorem C2_capacity_invariant (items : List (Nat × Nat)) (cc dc : Nat)
    (cw dw : ℚ) (bins : List Bin)
    (hcw0 : 0 < cw) (hcw1 : cw ≤ 1) (hdw0 : 0 < dw) (hdw1 : dw ≤ 1)
    (h : bin_packing_weighted_ffd items cc dc cw dw = some bins)
    (b : Bin) (hb : b ∈ bins) :
    ((b.items.map Prod.fst).sum : ℚ) ≤ (cc : ℚ) / cw ∧
    ((b.items.map Prod.snd).sum : ℚ) ≤ (dc : ℚ) / dw ∧
    (b.core_capacity ≤ (b.items.map Prod.fst).sum →
      b.remaining_core_capacity = 0) ∧
    (b.disk_capacity ≤ (b.items.map Prod.snd).sum →
      b.remaining_disk_capacity = 0) := by
  have hbi : BinInv cc dc cw dw b := by
    rw [pack_eq_some items cc dc cw dw bins h] at hb
    exact foldl_ffdStep_BinInv cc dc cw dw (le_of_lt hcw0) hcw1
      (le_of_lt hdw0) hdw1 _ b hb
  obtain ⟨h1, h2, h3, h4⟩ := hbi
  refine ⟨(le_div_iff₀ hcw0).mpr h3, (le_div_iff₀ hdw0).mpr h4, ?_, ?_⟩
  · intro hle
    exact Nat.sub_eq_zero_of_le hle
  · intro hle
    exact Nat.sub_eq_zero_of_le hle

/-- Witness for C2 at a concrete run and container. -/
theorem C2_capacity_invariant_witness :
    (0 : ℚ) < 3/5 ∧ (3/5 : ℚ) ≤ 1 ∧ (0 : ℚ) < 2/5 ∧ (2/5 : ℚ) ≤ 1 ∧
    ((((⟨10, 200, [(4, 100), (2, 50)]⟩ : Bin)).items.map Prod.fst).sum : ℚ) ≤
      (10 : ℚ) / (3/5) ∧
    ((((⟨10, 200, [(4, 100), (2, 50)]⟩ : Bin)).items.map Prod.snd).sum : ℚ) ≤
      (200 : ℚ) / (2/5) ∧
    ((⟨10, 200, [(4, 100), (2, 50)]⟩ : Bin).core_capacity ≤
        (((⟨10, 200, [(4, 100), (2, 50)]⟩ : Bin)).items.map Prod.fst).sum →
      (⟨10, 200, [(4, 100), (2, 50)]⟩ : Bin).remaining_core_capacity = 0) ∧
    ((⟨10, 200, [(4, 100), (2, 50)]⟩ : Bin).disk_capacity ≤
        (((⟨10, 200, [(4, 100), (2, 50)]⟩ : Bin)).items.map Prod.snd).sum →
      (⟨10, 200, [(4, 100), (2, 50)]⟩ : Bin).remaining_disk_capacity = 0) := by
  have h := C2_capacity_invariant [(4, 100), (2, 50)] 10 200 (3/5) (2/5)
    [⟨10, 200, [(4, 100), (2, 50)]⟩]
    (by norm_num) (by norm_num) (by norm_num) (by norm_num)
    (by norm_num [bin_packing_weighted_ffd, ffdLoop, ffdStep, placeInBins,
      sortDesc, insertDesc, sortValue, Bin.new, Bin.add_item,
      Bin.remaining_core_capacity, Bin.remaining_disk_capacity])
    ⟨10, 200, [(4, 100), (2, 50)]⟩ (by simp)
  exact ⟨by norm_num, by norm_num, by norm_num, by norm_num,
    h.1, h.2.1, h.2.2.1, h.2.2.2⟩

/-- Claim C3: the code contradicts the spec here. With item (11,50),
capacities (10,200) and weights (1,0), the item cannot fit an empty
container, yet the packer returns successfully with one empty container and
no error or rejected-items output: the item is silently unaccounted for
(main.rs lines 76-81 ignore the bool returned by add_item on the fresh
bin). -/
theorem C3_unplaceable_item_silently_dropped :
    bin_packing_weighted_ffd [(11, 50)] 10 200 1 0 = some [⟨10, 200, []⟩] ∧
    ((Bin.new 10 200).add_item 11 50 1 0).1 = false := by
  constructor
  · norm_num [bin_packing_weighted_ffd, ffdLoop, ffdStep, placeInBins, sortDesc,
      insertDesc, sortValue, Bin.new, Bin.add_item, Bin.remaining_core_capacity,
      Bin.remaining_disk_capacity]
  · norm_num [Bin.new, Bin.add_item, Bin.remaining_core_capacity,
      Bin.remaining_disk_capacity]

/-- Claim C4, counterexample: capacities are u32; zero (the only
non-positive value) is not rejected: with capacities (0,0) and valid
weights the call returns a result instead of failing. -/
theorem C4_invalid_configuration_counterexample :
    bin_packing_weighted_ffd [(1, 1)] 0 0 (1/2) (1/2) =
      some [⟨0, 0, []⟩] := by
  norm_num [bin_packing_weighted_ffd, ffdLoop, ffdStep, placeInBins, sortDesc,
    insertDesc, sortValue, Bin.new, Bin.add_item, Bin.remaining_core_capacity,
    Bin.remaining_disk_capacity]

/-- Claim C4 (amended): when the weight pair does not sum to 1.0 within
tolerance 1e-6 the call aborts (assert! panic, modelled as none) before any
placement, with no partial result; capacities are unsigned and are not
validated at all. -/
theorem C4_weight_check_aborts (items : List (Nat × Nat)) (cc dc : Nat)
    (cw dw : ℚ) (h : ¬ |cw + dw - 1| < 1 / 1000000) :
    bin_packing_weighted_ffd items cc dc cw dw = none := by
  unfold bin_packing_weighted_ffd
  rw [if_neg h]

/-- Witness for C4 at the spec's scenario 5 weights (0.5, 0.4). -/
theorem C4_weight_check_aborts_witness :
    ¬ |(1/2 : ℚ) + 2/5 - 1| < 1 / 1000000 ∧
    bin_packing_weighted_ffd [(4, 100)] 10 200 (1/2) (2/5) = none := by
  have habs : |(1/2 : ℚ) + 2/5 - 1| = 1/10 := by
    rw [show (1/2 : ℚ) + 2/5 - 1 = -(1/10) by norm_num, abs_neg,
      abs_of_pos (by norm_num : (0 : ℚ) < 1/10)]
  have h : ¬ |(1/2 : ℚ) + 2/5 - 1| < 1 / 1000000 := by
    rw [habs]; norm_num
  exact ⟨h, C4_weight_check_aborts [(4, 100)] 10 200 (1/2) (2/5) h⟩

/-- Claim C6: add_item succeeds — returns true and appends the item —
exactly when remaining_compute ≥ item.compute * compute_weight and
remaining_storage ≥ item.storage * storage_weight; on failure it returns
false and leaves the container completely unchanged. -/
theorem C6_try_place_contract (b : Bin) (c d : Nat) (cw dw : ℚ) :
    ((b.add_item c d cw dw).1 = true ↔
      ((c : ℚ) * cw ≤ (b.remaining_core_capacity : ℚ) ∧
       (d : ℚ) * dw ≤ (b.remaining_disk_capacity : ℚ))) ∧
    ((b.add_item c d cw dw).1 = true →
      (b.add_item c d cw dw).2 =
        ⟨b.core_capacity, b.disk_capacity, b.items ++ [(c, d)]⟩) ∧
    ((b.add_item c d cw dw).1 = false → (b.add_item c d cw dw).2 = b) :=
  ⟨Bin.add_item_fst_true_iff b c d cw dw,
    Bin.add_item_snd_of_true b c d cw dw,
    Bin.add_item_snd_of_false b c d cw dw⟩

/-- Witness for C6 at a concrete bin and item. -/
theorem C6_try_place_contract_witness :
    (((⟨10, 200, []⟩ : Bin).add_item 4 100 (3/5) (2/5)).1 = true ↔
      ((4 : ℚ) * (3/5) ≤ ((⟨10, 200, []⟩ : Bin).remaining_core_capacity : ℚ) ∧
       (100 : ℚ) * (2/5) ≤
         ((⟨10, 200, []⟩ : Bin).remaining_disk_capacity : ℚ))) ∧
    (((⟨10, 200, []⟩ : Bin).add_item 4 100 (3/5) (2/5)).1 = true →
      ((⟨10, 200, []⟩ : Bin).add_item 4 100 (3/5) (2/5)).2 =
        ⟨10, 200, [] ++ [(4, 100)]⟩) ∧
    (((⟨10, 200, []⟩ : Bin).add_item 4 100 (3/5) (2/5)).1 = false →
      ((⟨10, 200, []⟩ : Bin).add_item 4 100 (3/5) (2/5)).2 = ⟨10, 200, []⟩) :=
  C6_try_place_contract ⟨10, 200, []⟩ 4 100 (3/5) (2/5)

/-- Claim C5, counterexample: when an item fits no existing container and
also does not fit an empty one, the fresh container is still appended but
the item is NOT placed in it (the bool from add_item is discarded): with no
existing containers, item (11,50), capacities (10,200), weights (1,0), the
step appends an empty container. -/
theorem C5_first_fit_counterexample :
    ffdStep 10 200 1 0 [] (11, 50) = [⟨10, 200, []⟩] ∧
    (11, 50) ∉ (⟨10, 200, []⟩ : Bin).items := by
  constructor
  · norm_num [ffdStep, placeInBins, Bin.new, Bin.add_item,
      Bin.remaining_core_capacity, Bin.remaining_disk_capacity]
  · simp

/-- Claim C5 (amended): items are sorted by descending weighted score, each
sorted item is offered to existing containers in creation order and placed
in the first that accepts it; when none accepts, exactly one new container
with the fixed capacities is appended at the end, and the item is placed in
it provided it fits an empty container (otherwise the new container is
appended empty and the item is dropped). -/
theorem C5_sort_then_first_fit (items : List (Nat × Nat)) (cc dc : Nat)
    (cw dw : ℚ) (hW : |cw + dw - 1| < 1 / 1000000) :
    (sortDesc cw dw items).Perm items ∧
    (sortDesc cw dw items).Pairwise
      (fun a b => sortValue cw dw b ≤ sortValue cw dw a) ∧
    bin_packing_weighted_ffd items cc dc cw dw =
      some ((sortDesc cw dw items).foldl (ffdStep cc dc cw dw) []) ∧
    (∀ (bins bins' : List Bin) (c d : Nat),
      placeInBins bins c d cw dw = some bins' →
        ffdStep cc dc cw dw bins (c, d) = bins' ∧
        ∃ i, ∃ hi : i < bins.length,
          ((bins.get ⟨i, hi⟩).add_item c d cw dw).1 = true ∧
          (∀ j (hj : j < bins.length), j < i →
            ((bins.get ⟨j, hj⟩).add_item c d cw dw).1 = false) ∧
          bins' = bins.set i ((bins.get ⟨i, hi⟩).add_item c d cw dw).2) ∧
    (∀ (bins : List Bin) (c d : Nat),
      placeInBins bins c d cw dw = none →
        (∀ b ∈ bins, (b.add_item c d cw dw).1 = false) ∧
        ((c : ℚ) * cw ≤ (cc : ℚ) → (d : ℚ) * dw ≤ (dc : ℚ) →
          ffdStep cc dc cw dw bins (c, d) = bins ++ [⟨cc, dc, [(c, d)]⟩])) := by
  refine ⟨sortDesc_perm cw dw items, sortDesc_pairwise cw dw items,
    pack_eq_of_check items cc dc cw dw hW, ?_, ?_⟩
  · intro bins bins' c d h
    refine ⟨by simp [ffdStep, h], placeInBins_some_spec bins bins' c d cw dw h⟩
  · intro bins c d h
    refine ⟨(placeInBins_none_iff bins c d cw dw).mp h, ?_⟩
    intro hc hd
    have hnew : ((Bin.new cc dc).add_item c d cw dw).1 = true := by
      rw [Bin.add_item_fst_true_iff]
      constructor
      · simpa [Bin.new, Bin.remaining_core_capacity] using hc
      · simpa [Bin.new, Bin.remaining_disk_capacity] using hd
    simp only [ffdStep, h]
    rw [Bin.add_item_snd_of_true _ _ _ _ _ hnew]
    simp [Bin.new]

/-- Witness for C5 at a concrete run. -/
theorem C5_sort_then_first_fit_witness :
    (|(3/5 : ℚ) + 2/5 - 1| < 1 / 1000000) ∧
    ((sortDesc (3/5) (2/5) [(4, 100), (2, 50)]).Perm [(4, 100), (2, 50)] ∧
    (sortDesc (3/5) (2/5) [(4, 100), (2, 50)]).Pairwise
      (fun a b => sortValue (3/5) (2/5) b ≤ sortValue (3/5) (2/5) a) ∧
    bin_packing_weighted_ffd [(4, 100), (2, 50)] 10 200 (3/5) (2/5) =
      some ((sortDesc (3/5) (2/5) [(4, 100), (2, 50)]).foldl
        (ffdStep 10 200 (3/5) (2/5)) []) ∧
    (∀ (bins bins' : List Bin) (c d : Nat),
      placeInBins bins c d (3/5) (2/5) = some bins' →
        ffdStep 10 200 (3/5) (2/5) bins (c, d) = bins' ∧
        ∃ i, ∃ hi : i < bins.length,
          ((bins.get ⟨i, hi⟩).add_item c d (3/5) (2/5)).1 = true ∧
          (∀ j (hj : j < bins.length), j < i →
            ((bins.get ⟨j, hj⟩).add_item c d (3/5) (2/5)).1 = false) ∧
          bins' = bins.set i ((bins.get ⟨i, hi⟩).add_item c d (3/5) (2/5)).2) ∧
    (∀ (bins : List Bin) (c d : Nat),
      placeInBins bins c d (3/5) (2/5) = none →
        (∀ b ∈ bins, (b.add_item c d (3/5) (2/5)).1 = false) ∧
        ((c : ℚ) * (3/5) ≤ (10 : ℚ) → (d : ℚ) * (2/5) ≤ (200 : ℚ) →
          ffdStep 10 200 (3/5) (2/5) bins (c, d) =
            bins ++ [⟨10, 200, [(c, d)]⟩]))) :=
  ⟨by norm_num,
    C5_sort_then_first_fit [(4, 100), (2, 50)] 10 200 (3/5) (2/5) (by norm_num)⟩

/-- Claim C7, counterexample: with weights (1,0) — accepted by the weight
check — the code's sole fit test accepts item (1,300) in an empty (10,200)
container while the spec's unweighted test rejects it: the program's fit
test is not the unweighted one. -/
theorem C7_unweighted_variant_counterexample :
    |(1 : ℚ) + 0 - 1| < 1 / 1000000 ∧
    ((⟨10, 200, []⟩ : Bin).add_item 1 300 1 0).1 = true ∧
    unweighted_fit ⟨10, 200, []⟩ 1 300 = false := by
  refine ⟨by norm_num, ?_, ?_⟩
  · norm_num [Bin.add_item, Bin.remaining_core_capacity,
      Bin.remaining_disk_capacity]
  · decide

/-- Claim C7 (amended): the program has no unweighted variant: its only fit
test is the weighted one of add_item, and for every weight pair accepted by
the weight check there are a container state and an item that the weighted
test accepts but the spec's unweighted test rejects. -/
theorem C7_no_unweighted_variant (cw dw : ℚ)
    (hW : |cw + dw - 1| < 1 / 1000000) :
    ∃ (b : Bin) (c d : Nat),
      (b.add_item c d cw dw).1 = true ∧ unweighted_fit b c d = false := by
  have hsum := abs_lt.mp hW
  by_cases hcw : cw < 1
  · have h1cw : 0 < 1 - cw := by linarith
    set N : Nat := ⌈(1 : ℚ) / (1 - cw)⌉₊ with hN
    have hNpos : 0 < N := Nat.ceil_pos.mpr (by positivity)
    have hNge : (1 : ℚ) / (1 - cw) ≤ (N : ℚ) := Nat.le_ceil _
    have hkey : (1 : ℚ) ≤ (N : ℚ) * (1 - cw) := by
      have := mul_le_mul_of_nonneg_right hNge (le_of_lt h1cw)
      rwa [div_mul_cancel₀ 1 (ne_of_gt h1cw)] at this
    refine ⟨⟨N - 1, 0, []⟩, N, 0, ?_, ?_⟩
    · rw [Bin.add_item_fst_true_iff]
      constructor
      · have hcast : (((N - 1 : ℕ)) : ℚ) = (N : ℚ) - 1 := by
          have h1N : 1 ≤ N := hNpos
          push_cast [h1N]
          ring
        have hrem : ((⟨N - 1, 0, []⟩ : Bin).remaining_core_capacity : ℚ) =
            (N : ℚ) - 1 := by
          simp [Bin.remaining_core_capacity, hcast]
        rw [hrem]
        have hexp : (N : ℚ) * (1 - cw) = (N : ℚ) - (N : ℚ) * cw := by ring
        linarith
      · simp [Bin.remaining_disk_capacity]
    · have hlt : N - 1 < N := Nat.sub_lt hNpos Nat.one_pos
      simp only [unweighted_fit, Bin.remaining_core_capacity,
        Bin.remaining_disk_capacity, decide_eq_false_iff_not]
      intro hcon
      rcases hcon with ⟨hcon, _⟩
      simp at hcon
      omega
  · have hdw : dw < 1 := by
      have hcw' : 1 ≤ cw := not_lt.mp hcw
      have : cw + dw < 1 + 1 / 1000000 := by linarith [hsum.2]
      linarith
    have h1dw : 0 < 1 - dw := by linarith
    set M : Nat := ⌈(1 : ℚ) / (1 - dw)⌉₊ with hM
    have hMpos : 0 < M := Nat.ceil_pos.mpr (by positivity)
    have hMge : (1 : ℚ) / (1 - dw) ≤ (M : ℚ) := Nat.le_ceil _
    have hkey : (1 : ℚ) ≤ (M : ℚ) * (1 - dw) := by
      have := mul_le_mul_of_nonneg_right hMge (le_of_lt h1dw)
      rwa [div_mul_cancel₀ 1 (ne_of_gt h1dw)] at this
    refine ⟨⟨0, M - 1, []⟩, 0, M, ?_, ?_⟩
    · rw [Bin.add_item_fst_true_iff]
      constructor
      · simp [Bin.remaining_core_capacity]
      · have hcast : (((M - 1 : ℕ)) : ℚ) = (M : ℚ) - 1 := by
          have h1M : 1 ≤ M := hMpos
          push_cast [h1M]
          ring
        have hrem : ((⟨0, M - 1, []⟩ : Bin).remaining_disk_capacity : ℚ) =
            (M : ℚ) - 1 := by
          simp [Bin.remaining_disk_capacity, hcast]
        rw [hrem]
        have hexp : (M : ℚ) * (1 - dw) = (M : ℚ) - (M : ℚ) * dw := by ring
        linarith
    · have hlt : M - 1 < M := Nat.sub_lt hMpos Nat.one_pos
      simp only [unweighted_fit, Bin.remaining_core_capacity,
        Bin.remaining_disk_capacity, decide_eq_false_iff_not]
      intro hcon
      rcases hcon with ⟨_, hcon⟩
      simp at hcon
      omega

/-- Witness for C7 at weights (1, 0). -/
theorem C7_no_unweighted_variant_witness :
    |(1 : ℚ) + 0 - 1| < 1 / 1000000 ∧
    ∃ (b : Bin) (c d : Nat),
      (b.add_item c d 1 0).1 = true ∧ unweighted_fit b c d = false :=
  ⟨by norm_num, C7_no_unweighted_variant 1 0 (by norm_num)⟩

/-- Claim C8, counterexample: adding the fitting item (5,0) to the list
[(3,3),(1,4),(0,5),(0,7)] with capacities (6,6) and weights (4/5,1/5)
DECREASES the container count from 3 to 2: first-fit-decreasing is not
monotone under supersets. -/
theorem C8_monotonicity_counterexample :
    (bin_packing_weighted_ffd [(3, 3), (1, 4), (0, 5), (0, 7)] 6 6
        (4/5) (1/5)).map List.length = some 3 ∧
    (bin_packing_weighted_ffd [(3, 3), (1, 4), (0, 5), (0, 7), (5, 0)] 6 6
        (4/5) (1/5)).map List.length = some 2 ∧
    (5 : ℚ) * (4/5) ≤ (6 : ℚ) ∧ (0 : ℚ) * (1/5) ≤ (6 : ℚ) ∧
    (5 : Nat) ≤ 6 ∧ (0 : Nat) ≤ 6 := by
    refine ⟨?_, ?_, by norm_num, by norm_num, by norm_num, by norm_num⟩ <;>
      norm_num [bin_packing_weighted_ffd, ffdLoop, ffdStep, placeInBins,
        sortDesc, insertDesc, sortValue, Bin.new, Bin.add_item,
        Bin.remaining_core_capacity, Bin.remaining_disk_capacity]

/-- Claim C8 (amended): appending one item whose weighted score is at most
every original item's score never decreases the number of containers; for
general supersets monotonicity fails (see the counterexample). -/
theorem C8_monotonicity_append_min (items : List (Nat × Nat)) (x : Nat × Nat)
    (cc dc : Nat) (cw dw : ℚ) (bins bins' : List Bin)
    (hx : ∀ p ∈ items, sortValue cw dw x ≤ sortValue cw dw p)
    (h1 : bin_packing_weighted_ffd items cc dc cw dw = some bins)
    (h2 : bin_packing_weighted_ffd (items ++ [x]) cc dc cw dw = some bins') :
    bins.length ≤ bins'.length := by
  rw [pack_eq_some _ _ _ _ _ _ h1, pack_eq_some _ _ _ _ _ _ h2]
  rw [ffdLoop, ffdLoop, sortDesc_append_last cw dw x items hx,
    List.foldl_append]
  simp only [List.foldl_cons, List.foldl_nil]
  exact ffdStep_length cc dc cw dw _ x

/-- Witness for C8 at a concrete run. -/
theorem C8_monotonicity_append_min_witness :
    (∀ p ∈ ([(4, 100)] : List (Nat × Nat)),
      sortValue (3/5) (2/5) (2, 50) ≤ sortValue (3/5) (2/5) p) ∧
    ([(⟨10, 200, [(4, 100)]⟩ : Bin)] : List Bin).length ≤
      ([(⟨10, 200, [(4, 100), (2, 50)]⟩ : Bin)] : List Bin).length := by
  have hx : ∀ p ∈ ([(4, 100)] : List (Nat × Nat)),
      sortValue (3/5) (2/5) (2, 50) ≤ sortValue (3/5) (2/5) p := by
    intro p hp
    rcases List.mem_singleton.mp hp with rfl
    norm_num [sortValue]
  refine ⟨hx, C8_monotonicity_append_min [(4, 100)] (2, 50) 10 200 (3/5) (2/5)
    [⟨10, 200, [(4, 100)]⟩] [⟨10, 200, [(4, 100), (2, 50)]⟩] hx ?_ ?_⟩ <;>
    norm_num [bin_packing_weighted_ffd, ffdLoop, ffdStep, placeInBins,
      sortDesc, insertDesc, sortValue, Bin.new, Bin.add_item,
      Bin.remaining_core_capacity, Bin.remaining_disk_capacity]

/-- Claim C9: the packer is a pure function of its inputs: two calls on
identical inputs return identical results — same containers, same order,
same placed items in the same placement order. -/
theorem C9_determinism (items₁ items₂ : List (Nat × Nat))
    (cc₁ cc₂ dc₁ dc₂ : Nat) (cw₁ cw₂ dw₁ dw₂ : ℚ)
    (hitems : items₁ = items₂) (hcc : cc₁ = cc₂) (hdc : dc₁ = dc₂)
    (hcw : cw₁ = cw₂) (hdw : dw₁ = dw₂) :
    bin_packing_weighted_ffd items₁ cc₁ dc₁ cw₁ dw₁ =
      bin_packing_weighted_ffd items₂ cc₂ dc₂ cw₂ dw₂ := by
  rw [hitems, hcc, hdc, hcw, hdw]

/-- Witness for C9 at a concrete pair of identical calls. -/
theorem C9_determinism_witness :
    ([(4, 100)] : List (Nat × Nat)) = [(4, 100)] ∧
    bin_packing_weighted_ffd [(4, 100)] 10 200 (3/5) (2/5) =
      bin_packing_weighted_ffd [(4, 100)] 10 200 (3/5) (2/5) :=
  ⟨rfl, C9_determinism [(4, 100)] [(4, 100)] 10 10 200 200 (3/5) (3/5)
    (2/5) (2/5) rfl rfl rfl rfl rfl⟩

/-- Claim C10: the only validation is the weight-sum check: the packer
returns a result exactly when core_weight + disk_weight is within 1e-6 of
1, in which case it sorts and places with those weights; in particular the
pair (1.5, -0.5) passes and the run completes using those weights. -/
theorem C10_only_weight_sum_validated (items : List (Nat × Nat))
    (cc dc : Nat) (cw dw : ℚ) :
    ((bin_packing_weighted_ffd items cc dc cw dw).isSome = true ↔
      |cw + dw - 1| < 1 / 1000000) ∧
    (|cw + dw - 1| < 1 / 1000000 →
      bin_packing_weighted_ffd items cc dc cw dw =
        some (ffdLoop cc dc cw dw (sortDesc cw dw items))) ∧
    bin_packing_weighted_ffd [(4, 100), (2, 50)] 10 200 (3/2) (-(1/2)) =
      some [⟨10, 200, [(2, 50), (4, 100)]⟩] := by
  refine ⟨pack_isSome_iff items cc dc cw dw,
    pack_eq_of_check items cc dc cw dw, ?_⟩
  norm_num [bin_packing_weighted_ffd, ffdLoop, ffdStep, placeInBins,
    sortDesc, insertDesc, sortValue, Bin.new, Bin.add_item,
    Bin.remaining_core_capacity, Bin.remaining_disk_capacity]

/-- Witness for C10 at the out-of-range weight pair (1.5, -0.5). -/
theorem C10_only_weight_sum_validated_witness :
    |(3/2 : ℚ) + -(1/2) - 1| < 1 / 1000000 ∧
    bin_packing_weighted_ffd [(4, 100), (2, 50)] 10 200 (3/2) (-(1/2)) =
      some (ffdLoop 10 200 (3/2) (-(1/2))
        (sortDesc (3/2) (-(1/2)) [(4, 100), (2, 50)])) := by
  have h : |(3/2 : ℚ) + -(1/2) - 1| < 1 / 1000000 := by norm_num
  exact ⟨h,
    (C10_only_weight_sum_validated [(4, 100), (2, 50)] 10 200
      (3/2) (-(1/2))).2.1 h⟩

